import Mathlib

/-!
Shallow embedding of the umbra image-stack integration core
(`src/umbra/integration/{memory,rejection,reduce}.py`, `src/umbra/common/polar.py`)
and proofs of the frozen claims about it.

Modelling conventions:
* Image values, weights, coordinates and thresholds are exact rationals (`ℚ`).
  The numpy code computes in float32; the claims under study are structural
  (masks, partitions, weighted means, division-by-zero and NaN behaviour),
  so exact arithmetic is the faithful abstraction.
* Every use of `sqrt` in the source (`polar.radius_map`, `np.ma.std`) feeds an
  order comparison.  We carry the squared quantity and compare in squared form,
  which is exactly equivalent (lemmas `sqrtLE_correct`, `sigmaRejectB_correct`
  justify the translations against `Real.sqrt`).
* IEEE special values arising from division by zero (`x/0 = ±inf`, `0/0 = NaN`)
  are modelled explicitly where the code relies on them (`compute_moon_weights`
  with `smoothness = 0`, the sigma-clip test when the column std is 0).
  A NaN-valued result is `Option.none`.
* numpy masked arrays are a pair (data, boolean mask); a stack entry marked
  rejected has `mask = true`.  NaN-marked stacks (`reduce.py` convention) are
  `Option ℚ` with `none` for NaN.
* Arrays are total functions from `ℕ` indices; all source loops and reductions
  range over `List.range N` etc., so out-of-bounds junk is never consulted.
-/

namespace Umbra

/-- A FITS header record, restricted to the occluder keywords the integration
code reads: `MOON-X`, `MOON-Y`, `MOON-R`. -/
structure Header where
  moonX : ℚ
  moonY : ℚ
  moonR : ℚ

/-- Decides `Real.sqrt s ≤ r` for the rational square `s`: the source compares
`dist_map <= radius` where `dist_map` is a Euclidean norm; we carry `s = dist²`
and use the exact equivalence `√s ≤ r ↔ 0 ≤ r ∧ s ≤ r²` (valid for `0 ≤ s`). -/
def sqrtLE (s r : ℚ) : Bool :=
  decide (0 ≤ r) && decide (s ≤ r ^ 2)

/-- Squared Euclidean distance from pixel `(h, w)` (row, column) to the centre
`(x_c, y_c)`.  `polar.radius_map(x_c, y_c, shape)` builds
`sqrt((y - y_c)² + (x - x_c)²)` over local pixel coordinates; we carry the
square (see `sqrtLE`). -/
def radiusSq (x_c y_c : ℚ) (h w : ℕ) : ℚ :=
  ((h : ℚ) - y_c) ^ 2 + ((w : ℚ) - x_c) ^ 2

/-- Models `np.clip(x, 0, 1)`, i.e. `np.minimum(1, np.maximum(0, x))`, for a rational
(non-NaN) argument. -/
def clip01 (x : ℚ) : ℚ := min 1 (max 0 x)

/-- Models `compute_moon_weights` (src/umbra/integration/rejection.py), as a function
of the pixel's Euclidean distance `d` to the occluder centre.  The source
computes `1 - np.clip((moon_radius - dist_map + smoothness) / smoothness, 0, 1)`
with `moon_radius = header["MOON-R"] + extra_radius`.  When `smoothness = 0`
the float expression divides by zero: a positive numerator gives `+inf` (clips
to 1, weight 0), a negative numerator gives `-inf` (clips to 0, weight 1), and
a zero numerator gives `0/0 = NaN`, which propagates through `np.clip` and the
subtraction; a NaN weight is modelled as `none`. -/
def compute_moon_weights (moonR extra_radius smoothness d : ℚ) : Option ℚ :=
  let r := moonR + extra_radius
  if smoothness = 0 then
    if 0 < r - d then some (1 - 1)
    else if r - d < 0 then some (1 - 0)
    else none
  else
    some (1 - clip01 ((r - d + smoothness) / smoothness))

/-! ## Rejection stages (src/umbra/integration/rejection.py)

A numpy masked array is a pair of a data array and a boolean mask
(`mask = true` means rejected). -/

/-- A masked stack of shape `(N, H, W, C)`: data plus rejection mask, indexed
`frame, row, column, channel`.  Sizes are passed to the operations, as in the
source where they are read off `stack.shape`. -/
structure MStack where
  data : ℕ → ℕ → ℕ → ℕ → ℚ
  mask : ℕ → ℕ → ℕ → ℕ → Bool

/-- The moon mask of frame `i` at pixel `(h, w)`:
`dist_map <= radius` with `dist_map = polar.radius_map(x_c, y_c, (H, W))`.
The distance is computed from the chunk-local row index `h` (`radius_map`
receives only the chunk's `(H, W)` shape — no region offset). -/
def moonMaskEntry (hdr : Header) (h w : ℕ) : Bool :=
  sqrtLE (radiusSq hdr.moonX hdr.moonY h w) hdr.moonR

/-- The per-pixel running scan of `moon_rejection`'s loop: starting from
`max_dist_map = 0`, `preferred_idx_map = 0`, each frame `i` with
`dist_map > max_dist_map` overwrites both (strict comparison, so the preferred
index is the first frame attaining the running maximum distance).  Distances
are compared in squared form, which preserves the strict order since both
sides are non-negative. -/
def moonScan (headers : ℕ → Header) (N h w : ℕ) : ℕ × ℚ :=
  (List.range N).foldl
    (fun acc i =>
      let d := radiusSq (headers i).moonX (headers i).moonY h w
      if acc.2 < d then (i, d) else acc)
    (0, 0)

/-- The value of `preferred_idx_map[h, w]` after the frame loop. -/
def preferredIdx (headers : ℕ → Header) (N h w : ℕ) : ℕ :=
  (moonScan headers N h w).1

/-- `np.all(stack.mask, axis=0)` after the frame loop.  At that point the mask
is channel-uniform (each `stack.mask[i, mask] = True` write covers all
channels and the initial mask is `False`), so the `(H, W, C)` array of the
source is constant in `c` and modelled per-pixel. -/
def allMaskedAfterLoop (headers : ℕ → Header) (N h w : ℕ) : Bool :=
  (List.range N).all (fun i => moonMaskEntry (headers i) h w)

/-- The mask built by `moon_rejection` (loop plus `unmask_preferred`): frame
`i` is masked at `(h, w, c)` iff it is inside its moon disk, except that at a
pixel/channel where every frame is masked the preferred frame is unmasked
(`stack.mask[n_idx, h_idx, w_idx, c_idx] = False`). -/
def moon_rejection_mask (headers : ℕ → Header) (N i h w : ℕ) : Bool :=
  moonMaskEntry (headers i) h w &&
    !(allMaskedAfterLoop headers N h w && (i == preferredIdx headers N h w))

/-- Models `moon_rejection(stack, headers)`: wraps the raw stack in a fresh
all-`False` mask (`np.ma.masked_array(stack, mask=False)`), masks each frame's
moon disk, and rescues the preferred frame at fully-masked pixels.  The data
is never written. -/
def moon_rejection (data : ℕ → ℕ → ℕ → ℕ → ℚ) (headers : ℕ → Header) (N : ℕ) : MStack :=
  MStack.mk data (fun i h w _c => moon_rejection_mask headers N i h w)

/-- The unmasked frame indices of one pixel/channel column (`np.ma` statistics
ignore masked entries). -/
def liveIdx (mask : ℕ → Bool) (N : ℕ) : List ℕ :=
  (List.range N).filter (fun i => !(mask i))

/-- Models `np.ma.mean(stack, axis=0)` at one pixel/channel column.  For a fully
masked column numpy yields the `masked` constant; the model returns ℚ's
`0 / 0 = 0`, which is never observed: the new mask is or-ed into an
already-all-`true` column. -/
def maColumnMean (x : ℕ → ℚ) (mask : ℕ → Bool) (N : ℕ) : ℚ :=
  ((liveIdx mask N).map x).sum / ((liveIdx mask N).length : ℚ)

/-- Models `np.ma.std(stack, axis=0)` squared (population variance, `ddof = 0`),
over the unmasked entries of one column. -/
def maColumnVar (x : ℕ → ℚ) (mask : ℕ → Bool) (N : ℕ) : ℚ :=
  ((liveIdx mask N).map (fun i => (x i - maColumnMean x mask N) ^ 2)).sum /
    ((liveIdx mask N).length : ℚ)

/-- Modelled from the spec's words, for the refinement comparison of claim C4
(the source computes the mean, see `maColumnMean`): the per-column median
across the frame axis, ignoring already-rejected entries — the middle element
of the sorted live values for an odd count, the mean of the two middle
elements for an even count. -/
def specMedian (x : ℕ → ℚ) (mask : ℕ → Bool) (N : ℕ) : ℚ :=
  let l := List.insertionSort (· ≤ ·) ((liveIdx mask N).map x)
  if l.length % 2 = 1 then l.getD (l.length / 2) 0
  else (l.getD (l.length / 2 - 1) 0 + l.getD (l.length / 2) 0) / 2

/-- The concrete frame-axis column of C4's counterexample:
values `[2, 2, 2, 2, 17]`. -/
def x4col : ℕ → ℚ := fun i => if i = 4 then 17 else 2

/-- The sigma-clip test `np.abs(stack[i] - mean) / std > outlier_threshold`
with `a = |x - mean| ≥ 0` and `v = std²`.  IEEE semantics when the column std
is zero: `a / 0 = +inf > t` for `a > 0`, and `0 / 0 = NaN`, which compares
`False`.  For `v > 0`, `a / √v > t` is decided in squared form (exact; see
`sigmaRejectB_correct`). -/
def sigmaRejectB (a t v : ℚ) : Bool :=
  if v = 0 then decide (0 < a)
  else decide (t < 0) || decide (t ^ 2 * v < a ^ 2)

/-- The new mask of one column entry after `outlier_rejection`'s single pass:
`stack.mask |= new_mask` with `new_mask[i] = |stack[i] - mean| / std > t`.
(For an already-masked entry the numpy comparison involves the `masked`
constant and or-ing it into a `true` mask bit is unobservable.) -/
def outlier_rejection_entry (x : ℕ → ℚ) (mask : ℕ → Bool) (N : ℕ) (t : ℚ) (i : ℕ) : Bool :=
  mask i || sigmaRejectB |x i - maColumnMean x mask N| t (maColumnVar x mask N)

/-- Models `outlier_rejection(stack, outlier_threshold)`: one iteration of
mean/std-based sigma clipping over the frame axis, updating the mask in place
(`stack.mask |= new_mask`); the data is never written. -/
def outlier_rejection (s : MStack) (N : ℕ) (t : ℚ) : MStack :=
  MStack.mk s.data
    (fun i h w c =>
      outlier_rejection_entry (fun j => s.data j h w c) (fun j => s.mask j h w c) N t i)

/-! ## Memory planner (src/umbra/integration/memory.py) -/

/-- Models `compute_stacking_memory_requirements`: peak bytes during stacking. -/
def compute_stacking_memory_requirements
    (num_images height width num_channels byte_per_pixel : ℕ) : ℕ :=
  let stack_memory := height * width * num_channels * num_images * byte_per_pixel
  let weights_memory := height * width * num_images * byte_per_pixel
  let peak_rejection_memory :=
    height * width * num_channels * (num_images * 2 + byte_per_pixel * 2)
  stack_memory + weights_memory + peak_rejection_memory

/-- The chunk count `n_chunks = int(np.ceil(required_stack_mem / max_mem))` (exact rational
ceiling; the source's float rounding is abstracted).  `max_mem` is an `ℤ`
because the claims probe non-positive budgets. -/
def nChunks (num_images H W C : ℕ) (max_mem : ℤ) : ℤ :=
  Int.ceil ((compute_stacking_memory_requirements num_images H W C 4 : ℚ) / (max_mem : ℚ))

/-- The list `chunk_sizes = [(height // n_chunks) + (1 if i < height % n_chunks else 0)
for i in range(n_chunks)]`.  A non-positive `n_chunks` makes `range(n_chunks)`
empty, which `List.range n` with `n = toNat n_chunks = 0` reproduces. -/
def chunkSizes (height n : ℕ) : List ℕ :=
  (List.range n).map (fun i => height / n + (if i < height % n then 1 else 0))

/-- The accumulation loop producing `rows_ranges` from the chunk sizes:
`row_start = 0; for size in sizes: append (row_start, row_start + size)`. -/
def ranges_from_sizes (row_start : ℕ) : List ℕ → List (ℕ × ℕ)
  | [] => []
  | size :: rest => (row_start, row_start + size) :: ranges_from_sizes (row_start + size) rest

/-- Models `compute_rows_ranges_for_stack(num_images, shape, max_mem, dtype=float32)`.
With `max_mem = 0` the Python expression `required_stack_mem / max_mem` raises
`ZeroDivisionError` before anything is returned: modelled as `none`.  For any
other budget the function returns the list built by the loop (empty when the
computed `n_chunks` is non-positive, i.e. when `max_mem < 0`). -/
def compute_rows_ranges_for_stack (num_images H W C : ℕ) (max_mem : ℤ) :
    Option (List (ℕ × ℕ)) :=
  if max_mem = 0 then none
  else some (ranges_from_sizes 0 (chunkSizes H (nChunks num_images H W C max_mem).toNat))

/-! ## Weighted reducer (src/umbra/integration/reduce.py) -/

/-- Result of `weighted_average_ignore_nan`: the function mutates `stack` in
place (NaN entries overwritten by 0), leaves `weights` untouched (it works on
a copy `weights_c`), and fills the two caller-owned output buffers. -/
structure ReduceResult where
  stack : ℕ → ℕ → ℕ → ℕ → Option ℚ
  weights : ℕ → ℕ → ℕ → ℚ
  out_img : ℕ → ℕ → ℕ → ℚ
  out_total_weights : ℕ → ℕ → ℕ → ℚ

/-- The per-frame effective weight used by the reducer: `weights_c[:] = weights;
weights_c[mask[..., c]] = 0` zeroes the weight wherever the stack value is NaN. -/
def effWeight (stack : ℕ → ℕ → ℕ → ℕ → Option ℚ) (weights : ℕ → ℕ → ℕ → ℚ)
    (i h w c : ℕ) : ℚ :=
  if (stack i h w c).isSome then weights i h w else 0

/-- Models `weighted_average_ignore_nan(stack, weights, out_img, out_total_weights)`:
`mask = np.isnan(stack); stack[mask] = 0`; per channel, einsum of the zeroed
stack against the NaN-zeroed weights, the weight sum, the division
`out_img /= out_total_weights`, and finally `out_total_weights /= N`.
(The zeroed stack entry times its zeroed weight contributes 0 either way, so
the numerator uses `getD 0`.)  Division by a zero weight sum is left at ℚ's
`x / 0 = 0`; the claims only evaluate the outputs under the documented
precondition that every pixel/channel keeps a live, nonzero-weight frame. -/
def weighted_average_ignore_nan (N : ℕ)
    (stack : ℕ → ℕ → ℕ → ℕ → Option ℚ) (weights : ℕ → ℕ → ℕ → ℚ) : ReduceResult :=
  ReduceResult.mk
    (fun i h w c => some ((stack i h w c).getD 0))
    weights
    (fun h w c =>
      (((List.range N).map (fun i => (stack i h w c).getD 0 * effWeight stack weights i h w c)).sum) /
      (((List.range N).map (fun i => effWeight stack weights i h w c)).sum))
    (fun h w c =>
      (((List.range N).map (fun i => effWeight stack weights i h w c)).sum) / (N : ℚ))

/-! ## Per-chunk pipeline (src/umbra/scripts/integration.py, per-chunk loop)

The orchestrator processes each planned row range through
`moon_rejection → outlier_rejection → weighted_average_ignore_nan`, writing
the chunk's rows of the full-height outputs.  The rejection stages mark
entries in the stack's mask; a fully-excluded entry is a NaN/zero-weight entry
for the reducer (spec §4.2: zero-weight pixels of the stack are set to NaN).
Note the version skew in the source: `scripts/integration.py` calls
`moon_rejection(stack, headers, extra_radius_pixels, smoothness, region, ...)`
and expects a weight map back, but `rejection.py`'s `moon_rejection` accepts
only `(stack, headers)` and returns the masked stack; the stages are composed
here along the data each of them actually produces, with unit occlusion
weights (the orchestrator's non-moon default). -/

/-- Hand-off from the masked rejection stages to the NaN-based reducer: a
masked entry is a NaN entry. -/
def maskedToNaN (s : MStack) : ℕ → ℕ → ℕ → ℕ → Option ℚ :=
  fun i h w c => if s.mask i h w c then none else some (s.data i h w c)

/-- One chunk of the integration pipeline: moon rejection, then outlier
rejection, then weighted reduction with unit weights.  `data` is indexed by
chunk-local rows; the moon geometry inside `moon_rejection` is computed from
those local row indices (the source passes only the chunk's `(H, W)` shape to
`polar.radius_map`). -/
def processChunk (data : ℕ → ℕ → ℕ → ℕ → ℚ) (headers : ℕ → Header) (N : ℕ) (t : ℚ) :
    ReduceResult :=
  weighted_average_ignore_nan N
    (maskedToNaN (outlier_rejection (moon_rejection data headers N) N t))
    (fun _ _ _ => 1)

/-- The full-height output image assembled chunk by chunk from a row-range
plan: global row `h` is written by the chunk `(a, b)` containing it, at local
row `h - a`, from the sub-stack of rows `a ≤ h < b`. -/
def chunkedOut (parts : List (ℕ × ℕ)) (data : ℕ → ℕ → ℕ → ℕ → ℚ)
    (headers : ℕ → Header) (N : ℕ) (t : ℚ) : ℕ → ℕ → ℕ → ℚ :=
  fun h w c =>
    match parts.find? (fun r => decide (r.1 ≤ h) && decide (h < r.2)) with
    | some r => (processChunk (fun i hl => data i (r.1 + hl)) headers N t).out_img (h - r.1) w c
    | none => 0

/-- The assembled total-weight map, chunk by chunk. -/
def chunkedTotalWeights (parts : List (ℕ × ℕ)) (data : ℕ → ℕ → ℕ → ℕ → ℚ)
    (headers : ℕ → Header) (N : ℕ) (t : ℚ) : ℕ → ℕ → ℕ → ℚ :=
  fun h w c =>
    match parts.find? (fun r => decide (r.1 ≤ h) && decide (h < r.2)) with
    | some r =>
        (processChunk (fun i hl => data i (r.1 + hl)) headers N t).out_total_weights (h - r.1) w c
    | none => 0

/-! ## Concrete stack for the chunk-invariance check (C1)

Two frames over a `(2, 1, 1)` image.  Frame 0's occluder sits at `(x, y) =
(0, 0)` with radius `1/2`, so in full-image coordinates it covers only row 0;
frame 1's occluder is far away (centre `(0, 9)`, radius 1) and covers
nothing. -/

def c1Headers : ℕ → Header :=
  fun i => if i = 0 then Header.mk 0 0 (1 / 2) else Header.mk 0 9 1

/-- Frame 0 holds `10` in row 0 and `20` in row 1; frame 1 is all zero. -/
def c1Data : ℕ → ℕ → ℕ → ℕ → ℚ :=
  fun i h _ _ => if i = 0 then 10 * ((h : ℚ) + 1) else 0

/-! ## Justification lemmas for the squared-form comparisons -/

theorem radiusSq_nonneg (x_c y_c : ℚ) (h w : ℕ) : 0 ≤ radiusSq x_c y_c h w :=
  add_nonneg (sq_nonneg _) (sq_nonneg _)

theorem sqrtLE_correct (s r : ℚ) (hs : 0 ≤ s) :
    sqrtLE s r = true ↔ Real.sqrt s ≤ (r : ℝ) := by
  unfold sqrtLE
  constructor
  · intro h
    simp only [Bool.and_eq_true, decide_eq_true_eq] at h
    obtain ⟨hr, hsr⟩ := h
    have h1 : Real.sqrt s ≤ Real.sqrt ((r : ℝ) ^ 2) := by
      apply Real.sqrt_le_sqrt
      exact_mod_cast hsr
    rwa [Real.sqrt_sq (by exact_mod_cast hr)] at h1
  · intro h
    have hr : (0 : ℝ) ≤ r := le_trans (Real.sqrt_nonneg _) h
    have h2 : ((s : ℝ)) ≤ (r : ℝ) ^ 2 := by
      calc (s : ℝ) = Real.sqrt s ^ 2 :=
            (Real.sq_sqrt (by exact_mod_cast hs : (0:ℝ) ≤ (s : ℝ))).symm
        _ ≤ (r : ℝ) ^ 2 := by
            apply pow_le_pow_left₀ (Real.sqrt_nonneg _) h
    simp only [Bool.and_eq_true, decide_eq_true_eq]
    exact ⟨by exact_mod_cast hr, by exact_mod_cast h2⟩

/-- The sigma-clip test decided by `sigmaRejectB` coincides with membership in
the open outside of the band `[mean - t·std, mean + t·std]` (over the reals,
`std = √v`), for every variance `v ≥ 0` — including the IEEE `std = 0` corner,
where the band degenerates to the single point `mean`. -/
theorem sigmaRejectB_eq_bounds (x m t v : ℚ) (hv : 0 ≤ v) :
    sigmaRejectB |x - m| t v = true ↔
      ((x : ℝ) < (m : ℝ) - t * Real.sqrt v ∨ (m : ℝ) + t * Real.sqrt v < (x : ℝ)) := by
  have habs : |(x : ℝ) - (m : ℝ)| = ((|x - m| : ℚ) : ℝ) := by
    rw [Rat.cast_abs, Rat.cast_sub]
  have hband : ((x : ℝ) < (m : ℝ) - t * Real.sqrt v ∨ (m : ℝ) + t * Real.sqrt v < (x : ℝ))
      ↔ (t : ℝ) * Real.sqrt v < |(x : ℝ) - (m : ℝ)| := by
    rw [lt_abs]
    constructor
    · rintro (h | h)
      · exact Or.inr (by linarith)
      · exact Or.inl (by linarith)
    · rintro (h | h)
      · exact Or.inr (by linarith)
      · exact Or.inl (by linarith)
  rw [hband, habs]
  unfold sigmaRejectB
  rcases eq_or_lt_of_le hv with hv0 | hvpos
  · rw [if_pos hv0.symm]
    rw [← hv0]
    simp only [Rat.cast_zero, Real.sqrt_zero, mul_zero, decide_eq_true_eq]
    exact ⟨fun h => by exact_mod_cast h, fun h => by exact_mod_cast h⟩
  · rw [if_neg (ne_of_gt hvpos)]
    have hsv : (0 : ℝ) < Real.sqrt v := Real.sqrt_pos.2 (by exact_mod_cast hvpos)
    rcases lt_or_le t 0 with ht | ht
    · have : (t : ℝ) * Real.sqrt v < 0 :=
        mul_neg_of_neg_of_pos (by exact_mod_cast ht) hsv
      simp only [Bool.or_eq_true, decide_eq_true_eq]
      constructor
      · intro _
        exact lt_of_lt_of_le this (by positivity)
      · intro _
        exact Or.inl ht
    · have htR : (0 : ℝ) ≤ (t : ℝ) := by exact_mod_cast ht
      have hsq : ((t : ℝ) * Real.sqrt v) ^ 2 = (t : ℝ) ^ 2 * (v : ℝ) := by
        rw [mul_pow, Real.sq_sqrt (by exact_mod_cast hv)]
      simp only [Bool.or_eq_true, decide_eq_true_eq]
      constructor
      · rintro (h | h)
        · linarith
        · have h2 : ((t : ℝ)) ^ 2 * (v : ℝ) < ((|x - m| : ℚ) : ℝ) ^ 2 := by exact_mod_cast h
          rw [← hsq] at h2
          exact lt_of_pow_lt_pow_left₀ 2 (by positivity) h2
      · intro h
        right
        have h2 : ((t : ℝ) * Real.sqrt v) ^ 2 < ((|x - m| : ℚ) : ℝ) ^ 2 :=
          pow_lt_pow_left₀ h (by positivity) (by norm_num)
        rw [hsq] at h2
        exact_mod_cast h2

/-! ## Elementary facts about the clip function -/

theorem clip01_nonneg (x : ℚ) : 0 ≤ clip01 x :=
  le_min zero_le_one (le_max_left 0 x)

theorem clip01_le_one (x : ℚ) : clip01 x ≤ 1 :=
  min_le_left 1 _

theorem clip01_mono {a b : ℚ} (h : a ≤ b) : clip01 a ≤ clip01 b :=
  min_le_min le_rfl (max_le_max le_rfl h)

theorem clip01_flip (v : ℚ) : 1 - clip01 (1 - v) = clip01 v := by
  unfold clip01
  rcases le_total v 0 with h | h
  · rw [max_eq_left h, min_eq_right (zero_le_one), max_eq_right (by linarith),
      min_eq_left (by linarith)]
    ring
  · rcases le_total v 1 with h1 | h1
    · rw [max_eq_right h, min_eq_right h1, max_eq_right (by linarith),
        min_eq_right (by linarith)]
      ring
    · rw [max_eq_right h, min_eq_left h1, max_eq_left (by linarith : 1 - v ≤ 0),
        min_eq_right zero_le_one]
      ring

theorem clip01_of_nonpos {x : ℚ} (h : x ≤ 0) : clip01 x = 0 := by
  unfold clip01
  rw [max_eq_left h, min_eq_right zero_le_one]

theorem clip01_of_one_le {x : ℚ} (h : 1 ≤ x) : clip01 x = 1 := by
  unfold clip01
  rw [max_eq_right (by linarith), min_eq_left h]

/-! ## C5: occlusion weight ramp -/

/-- C5.  Occlusion weight ramp: for smoothness `S > 0` the weight computed by
`compute_moon_weights` at distance `d` equals `clip((d - (R + E)) / S, 0, 1)`;
hence it is 0 for `d ≤ R + E`, 1 for `d ≥ R + E + S`, always lies in `[0, 1]`,
and is monotonically non-decreasing in the distance. -/
theorem C5_weight_ramp (R E S d : ℚ) (hS : 0 < S) :
    compute_moon_weights R E S d = some (clip01 ((d - (R + E)) / S)) ∧
    (d ≤ R + E → compute_moon_weights R E S d = some 0) ∧
    (R + E + S ≤ d → compute_moon_weights R E S d = some 1) ∧
    (∀ u, compute_moon_weights R E S d = some u → 0 ≤ u ∧ u ≤ 1) ∧
    (∀ d' u u', d ≤ d' → compute_moon_weights R E S d = some u →
      compute_moon_weights R E S d' = some u' → u ≤ u') := by
  have key : ∀ e : ℚ, compute_moon_weights R E S e = some (clip01 ((e - (R + E)) / S)) := by
    intro e
    unfold compute_moon_weights
    rw [if_neg (ne_of_gt hS)]
    have harg : (R + E - e + S) / S = 1 - (e - (R + E)) / S := by
      field_simp
      ring
    rw [harg, clip01_flip]
  refine ⟨key d, ?_, ?_, ?_, ?_⟩
  · intro hd
    rw [key d, clip01_of_nonpos (div_nonpos_of_nonpos_of_nonneg (by linarith) hS.le)]
  · intro hd
    rw [key d, clip01_of_one_le ((one_le_div hS).2 (by linarith))]
  · intro u hu
    rw [key d] at hu
    obtain rfl : clip01 ((d - (R + E)) / S) = u := Option.some.inj hu
    exact ⟨clip01_nonneg _, clip01_le_one _⟩
  · intro d' u u' hdd hu hu'
    rw [key d] at hu
    rw [key d'] at hu'
    obtain rfl : clip01 ((d - (R + E)) / S) = u := Option.some.inj hu
    obtain rfl : clip01 ((d' - (R + E)) / S) = u' := Option.some.inj hu'
    exact clip01_mono ((div_le_div_iff_of_pos_right hS).2 (by linarith))

/-- Witness for C5 at `R = 1`, `E = 0`, `S = 2`, `d = 5 ≥ R + E + S`. -/
theorem C5_weight_ramp_witness :
    (0 : ℚ) < 2 ∧ compute_moon_weights 1 0 2 5 = some 1 :=
  ⟨by norm_num, (C5_weight_ramp 1 0 2 5 (by norm_num)).2.2.1 (by norm_num)⟩

/-! ## C6: hard cutoff at zero smoothness -/

/-- C6 counterexample.  The claim asserts that with `smoothness = 0` the
weight at distance exactly `R + E` is 0; the code divides by zero there
(`0/0 = NaN`), so the weight is NaN (`none`), not 0.  Concretely with
`R = 1`, `E = 0`, `d = 1`. -/
theorem C6_counterexample :
    compute_moon_weights 1 0 0 1 = none ∧ (none : Option ℚ) ≠ some (0 : ℚ) := by
  constructor
  · norm_num [compute_moon_weights]
  · simp

/-- C6 (amended).  With `smoothness = 0` the computed weight is 1 at every
distance strictly greater than `R + E` and 0 at every distance strictly less
than `R + E`; at distance exactly `R + E` the float expression evaluates
`0/0 = NaN`, so the weight is undefined (NaN), not 0. -/
theorem C6_hard_cutoff (R E d : ℚ) :
    (R + E < d → compute_moon_weights R E 0 d = some 1) ∧
    (d < R + E → compute_moon_weights R E 0 d = some 0) ∧
    (d = R + E → compute_moon_weights R E 0 d = none) := by
  unfold compute_moon_weights
  refine ⟨fun hd => ?_, fun hd => ?_, fun hd => ?_⟩
  · rw [if_pos rfl, if_neg (by simp; linarith), if_pos (by linarith)]
    norm_num
  · rw [if_pos rfl, if_pos (by simp; linarith)]
    norm_num
  · rw [if_pos rfl, if_neg (by simp [hd]), if_neg (by simp [hd])]

/-- Witness for C6 at `R = 1`, `E = 0`, `d = 2 > R + E`. -/
theorem C6_hard_cutoff_witness :
    (1 : ℚ) + 0 < 2 ∧ compute_moon_weights 1 0 0 2 = some 1 :=
  ⟨by norm_num, (C6_hard_cutoff 1 0 2).1 (by norm_num)⟩

/-! ## C9: the reducer mutates its input stack -/

/-- C9.  `weighted_average_ignore_nan` overwrites every NaN entry of the input
stack with 0 in place (`stack[mask] = 0`): afterwards the stack contains no
NaN, every non-NaN entry keeps its value, and the weights array is left
unchanged (the function zeroes only its private copy `weights_c`). -/
theorem C9_reducer_mutates_stack (N : ℕ) (stack : ℕ → ℕ → ℕ → ℕ → Option ℚ)
    (weights : ℕ → ℕ → ℕ → ℚ) (i h w c : ℕ) :
    ((weighted_average_ignore_nan N stack weights).stack i h w c).isSome = true ∧
    (∀ v, stack i h w c = some v →
      (weighted_average_ignore_nan N stack weights).stack i h w c = some v) ∧
    (stack i h w c = none →
      (weighted_average_ignore_nan N stack weights).stack i h w c = some 0) ∧
    (weighted_average_ignore_nan N stack weights).weights = weights := by
  refine ⟨rfl, fun v hv => ?_, fun hv => ?_, rfl⟩
  · simp [weighted_average_ignore_nan, hv]
  · simp [weighted_average_ignore_nan, hv]

/-- Witness for C9: a concrete stack entry `some 5` survives unchanged. -/
theorem C9_reducer_mutates_stack_witness :
    (weighted_average_ignore_nan 1 (fun _ _ _ _ => some (5 : ℚ))
      (fun _ _ _ => 1)).stack 0 0 0 0 = some 5 :=
  (C9_reducer_mutates_stack 1 (fun _ _ _ _ => some 5) (fun _ _ _ => 1) 0 0 0 0).2.1 5 rfl

/-! ## C10: outlier rejection is monotone on the mask -/

/-- C10.  `outlier_rejection` only ever adds rejections: the new mask is or-ed
into the existing one (`stack.mask |= new_mask`), so every entry masked before
the call stays masked, and the stored data values are never altered. -/
theorem C10_outlier_monotone (s : MStack) (N : ℕ) (t : ℚ) (i h w c : ℕ)
    (hm : s.mask i h w c = true) :
    (outlier_rejection s N t).mask i h w c = true ∧
    (outlier_rejection s N t).data = s.data := by
  refine ⟨?_, rfl⟩
  simp [outlier_rejection, outlier_rejection_entry, hm]

/-- Witness for C10 on a concrete fully-masked one-frame stack. -/
theorem C10_outlier_monotone_witness :
    (outlier_rejection (MStack.mk (fun _ _ _ _ => 0) (fun _ _ _ _ => true)) 1 3).mask 0 0 0 0 = true ∧
    (outlier_rejection (MStack.mk (fun _ _ _ _ => 0) (fun _ _ _ _ => true)) 1 3).data =
      (MStack.mk (fun _ _ _ _ => (0 : ℚ)) (fun _ _ _ _ => true)).data :=
  C10_outlier_monotone (MStack.mk (fun _ _ _ _ => 0) (fun _ _ _ _ => true)) 1 3 0 0 0 0 rfl

/-! ## C8: non-positive memory budget -/

/-- C8.  The claim says any `max_bytes <= 0` raises a configuration error
before chunk processing.  The code does not: with a negative budget
(`max_mem = -1`, `num_images = 1`, shape `(1, 1, 1)`) the computed
`n_chunks = ceil(18 / -1) = -18` makes `range(n_chunks)` empty and the
planner silently returns the empty, malformed plan `[]`; with `max_mem = 0`
it dies with an unguarded `ZeroDivisionError` (modelled `none`) rather than a
configuration error. -/
theorem C8_negative_budget_silently_empty :
    compute_rows_ranges_for_stack 1 1 1 1 (-1) = some [] ∧
    compute_rows_ranges_for_stack 1 1 1 1 0 = none := by
  have hc : nChunks 1 1 1 1 (-1) = -18 := by
    unfold nChunks
    rw [show ((compute_stacking_memory_requirements 1 1 1 1 4 : ℚ)) / ((-1 : ℤ) : ℚ)
        = ((-18 : ℤ) : ℚ) by norm_num [compute_stacking_memory_requirements], Int.ceil_intCast]
  constructor
  · unfold compute_rows_ranges_for_stack
    rw [if_neg (by norm_num), hc]
    norm_num [chunkSizes, ranges_from_sizes]
  · unfold compute_rows_ranges_for_stack
    rw [if_pos rfl]

/-! ## C7: weighted reducer correctness -/

theorem list_range_map_sum (f : ℕ → ℚ) (n : ℕ) :
    ((List.range n).map f).sum = ∑ i ∈ Finset.range n, f i := by
  induction n with
  | zero => simp
  | succ n ih =>
      rw [List.range_succ, List.map_append, List.sum_append, Finset.sum_range_succ, ih]
      simp

theorem effWeight_nonneg (stack : ℕ → ℕ → ℕ → ℕ → Option ℚ) (weights : ℕ → ℕ → ℕ → ℚ)
    (hw : ∀ i h w, 0 ≤ weights i h w) (i h w c : ℕ) :
    0 ≤ effWeight stack weights i h w c := by
  unfold effWeight
  split
  · exact hw i h w
  · exact le_refl 0

/-- C7.  Under the precondition that every pixel/channel has at least one
frame with a non-NaN value and nonzero (hence, weights being a `[0,1]`-valued
occlusion map, positive) weight, the reducer's effective-weight sum is
strictly positive (no division by zero), `out_img` is the effective-weighted
mean of the frame values, and `out_total_weights` is the effective-weight sum
divided by `N`.  Consequently, with all weights 1 and no NaN entries,
`out_img` is the plain arithmetic mean along the frame axis and
`out_total_weights` is everywhere 1. -/
theorem C7_weighted_reducer (N H W C : ℕ)
    (stack : ℕ → ℕ → ℕ → ℕ → Option ℚ) (weights : ℕ → ℕ → ℕ → ℚ)
    (hw : ∀ i h w, 0 ≤ weights i h w)
    (hlive : ∀ h < H, ∀ w < W, ∀ c < C, ∃ i < N, (stack i h w c).isSome = true ∧ weights i h w ≠ 0) :
    ∀ h < H, ∀ w < W, ∀ c < C,
      0 < ∑ i ∈ Finset.range N, effWeight stack weights i h w c ∧
      (weighted_average_ignore_nan N stack weights).out_img h w c =
        (∑ i ∈ Finset.range N, (stack i h w c).getD 0 * effWeight stack weights i h w c) /
        (∑ i ∈ Finset.range N, effWeight stack weights i h w c) ∧
      (weighted_average_ignore_nan N stack weights).out_total_weights h w c =
        (∑ i ∈ Finset.range N, effWeight stack weights i h w c) / (N : ℚ) ∧
      ((∀ i < N, (stack i h w c).isSome = true ∧ weights i h w = 1) →
        (weighted_average_ignore_nan N stack weights).out_img h w c =
          (∑ i ∈ Finset.range N, (stack i h w c).getD 0) / (N : ℚ) ∧
        (weighted_average_ignore_nan N stack weights).out_total_weights h w c = 1) := by
  intro h hh w hww c hcc
  obtain ⟨i0, hi0, hsome0, hwz0⟩ := hlive h hh w hww c hcc
  have heff0 : 0 < effWeight stack weights i0 h w c := by
    unfold effWeight
    rw [if_pos hsome0]
    exact lt_of_le_of_ne (hw i0 h w) (Ne.symm hwz0)
  have hpos : 0 < ∑ i ∈ Finset.range N, effWeight stack weights i h w c :=
    Finset.sum_pos' (fun i _ => effWeight_nonneg stack weights hw i h w c)
      ⟨i0, Finset.mem_range.2 hi0, heff0⟩
  have himg : (weighted_average_ignore_nan N stack weights).out_img h w c =
      (∑ i ∈ Finset.range N, (stack i h w c).getD 0 * effWeight stack weights i h w c) /
      (∑ i ∈ Finset.range N, effWeight stack weights i h w c) := by
    simp only [weighted_average_ignore_nan]
    rw [list_range_map_sum, list_range_map_sum]
  have htot : (weighted_average_ignore_nan N stack weights).out_total_weights h w c =
      (∑ i ∈ Finset.range N, effWeight stack weights i h w c) / (N : ℚ) := by
    simp only [weighted_average_ignore_nan]
    rw [list_range_map_sum]
  refine ⟨hpos, himg, htot, fun hall => ?_⟩
  have heff1 : ∀ i ∈ Finset.range N, effWeight stack weights i h w c = 1 := by
    intro i hi
    obtain ⟨hs, hw1⟩ := hall i (Finset.mem_range.1 hi)
    unfold effWeight
    rw [if_pos hs, hw1]
  have hsum1 : ∑ i ∈ Finset.range N, effWeight stack weights i h w c = (N : ℚ) := by
    rw [Finset.sum_congr rfl heff1]
    simp
  have hN : (N : ℚ) ≠ 0 :=
    Nat.cast_ne_zero.2 (lt_of_le_of_lt (Nat.zero_le i0) hi0).ne'
  constructor
  · rw [himg, hsum1, Finset.sum_congr rfl (fun i hi => by rw [heff1 i hi, mul_one])]
  · rw [htot, hsum1, div_self hN]

/-- Witness for C7 on a two-frame all-live stack with unit weights: the
output is the arithmetic mean `(3 + 5) / 2 = 4` and the total weight is 1. -/
theorem C7_weighted_reducer_witness :
    (weighted_average_ignore_nan 2 (fun i _ _ _ => if i = 0 then some (3 : ℚ) else some 5)
      (fun _ _ _ => 1)).out_img 0 0 0 = 4 ∧
    (weighted_average_ignore_nan 2 (fun i _ _ _ => if i = 0 then some (3 : ℚ) else some 5)
      (fun _ _ _ => 1)).out_total_weights 0 0 0 = 1 := by
  have T := C7_weighted_reducer 2 1 1 1
    (fun i _ _ _ => if i = 0 then some (3 : ℚ) else some 5) (fun _ _ _ => 1)
    (fun _ _ _ => by norm_num)
    (fun h _ w _ c _ => ⟨0, by norm_num, by norm_num, by norm_num⟩)
  have Tc := (T 0 (by norm_num) 0 (by norm_num) 0 (by norm_num)).2.2.2
    (fun i _ => ⟨by rcases eq_or_ne i 0 with h0 | h0 <;> simp [h0], rfl⟩)
  refine ⟨?_, Tc.2⟩
  rw [Tc.1, Finset.sum_range_succ, Finset.sum_range_succ]
  norm_num

/-! ## C4: outlier rejection rule -/

theorem maColumnVar_nonneg (x : ℕ → ℚ) (mask : ℕ → Bool) (N : ℕ) :
    0 ≤ maColumnVar x mask N := by
  unfold maColumnVar
  apply div_nonneg
  · apply List.sum_nonneg
    intro q hq
    simp only [List.mem_map] at hq
    obtain ⟨j, _, rfl⟩ := hq
    exact sq_nonneg _
  · exact Nat.cast_nonneg _

/-- C4 counterexample.  The claim says the rejection centre is the median.
On the frame-axis column `[2, 2, 2, 2, 17]` with threshold `t = 13/6`:
`median = 2`, `std = 6`, so `17` lies strictly above `median + t·std = 15`
and the claim requires it to be marked; the code centres at the mean (5),
where `|17 - 5| = 12 ≤ 13 = t·std`, and leaves frame 4 unmasked. -/
theorem C4_counterexample :
    ((specMedian x4col (fun _ => false) 5 : ℝ) +
        ((13 / 6 : ℚ) : ℝ) * Real.sqrt ((maColumnVar x4col (fun _ => false) 5 : ℚ) : ℝ)
      < ((x4col 4 : ℚ) : ℝ)) ∧
    (outlier_rejection (MStack.mk (fun i _ _ _ => x4col i) (fun _ _ _ _ => false))
      5 (13 / 6)).mask 4 0 0 0 = false := by
  have hvar : maColumnVar x4col (fun _ => false) 5 = 36 := by
    norm_num [maColumnVar, maColumnMean, liveIdx, List.range_succ, x4col]
  have hmed : specMedian x4col (fun _ => false) 5 = 2 := by
    norm_num [specMedian, liveIdx, List.range_succ, x4col, List.insertionSort,
      List.orderedInsert]
  have hsqrt : Real.sqrt ((36 : ℚ) : ℝ) = 6 := by
    rw [show ((36 : ℚ) : ℝ) = (6 : ℝ) ^ 2 by norm_num, Real.sqrt_sq (by norm_num)]
  have hmean : maColumnMean x4col (fun _ => false) 5 = 5 := by
    norm_num [maColumnMean, liveIdx, List.range_succ, x4col]
  constructor
  · rw [hvar, hmed, hsqrt]
    norm_num [x4col]
  · simp only [outlier_rejection, outlier_rejection_entry, Bool.false_or]
    rw [hmean, hvar]
    norm_num [sigmaRejectB, x4col]

/-- C4 (amended).  The statistical rejection step computes, per pixel/channel
column, the mean (not the median) and the population standard deviation
across the frame axis, both ignoring already-rejected entries, in a single
non-iterative pass; an entry that was still live is marked rejected exactly
when it lies strictly below `mean - t·std` or strictly above `mean + t·std`;
already-rejected entries stay rejected, no stored value is altered, and a
column whose frame axis is entirely rejected is left unchanged (no crash, no
further marking). -/
theorem C4_outlier_rule (s : MStack) (N : ℕ) (t : ℚ) (i h w c : ℕ) :
    (outlier_rejection s N t).data = s.data ∧
    (s.mask i h w c = true → (outlier_rejection s N t).mask i h w c = true) ∧
    (s.mask i h w c = false →
      ((outlier_rejection s N t).mask i h w c = true ↔
        ((s.data i h w c : ℝ) <
            ((maColumnMean (fun j => s.data j h w c) (fun j => s.mask j h w c) N : ℚ) : ℝ) -
              t * Real.sqrt ((maColumnVar (fun j => s.data j h w c) (fun j => s.mask j h w c) N : ℚ) : ℝ) ∨
          ((maColumnMean (fun j => s.data j h w c) (fun j => s.mask j h w c) N : ℚ) : ℝ) +
              t * Real.sqrt ((maColumnVar (fun j => s.data j h w c) (fun j => s.mask j h w c) N : ℚ) : ℝ) <
            (s.data i h w c : ℝ)))) ∧
    ((∀ j, s.mask j h w c = true) → (outlier_rejection s N t).mask i h w c = s.mask i h w c) := by
  refine ⟨rfl, ?_, ?_, ?_⟩
  · intro hm
    simp [outlier_rejection, outlier_rejection_entry, hm]
  · intro hm
    simp only [outlier_rejection, outlier_rejection_entry, hm, Bool.false_or]
    exact sigmaRejectB_eq_bounds (s.data i h w c)
      (maColumnMean (fun j => s.data j h w c) (fun j => s.mask j h w c) N) t
      (maColumnVar (fun j => s.data j h w c) (fun j => s.mask j h w c) N)
      (maColumnVar_nonneg _ _ _)
  · intro hall
    simp [outlier_rejection, outlier_rejection_entry, hall i]

/-- Witness for C4 on a concrete already-masked entry, which stays masked. -/
theorem C4_outlier_rule_witness :
    (outlier_rejection (MStack.mk (fun _ _ _ _ => 0) (fun _ _ _ _ => true)) 2 1).mask 1 0 0 0 = true :=
  (C4_outlier_rule (MStack.mk (fun _ _ _ _ => 0) (fun _ _ _ _ => true)) 2 1 1 0 0 0).2.1 rfl

/-! ## C3: partition correctness of the memory planner -/

theorem ranges_from_sizes_length (start : ℕ) (sizes : List ℕ) :
    (ranges_from_sizes start sizes).length = sizes.length := by
  induction sizes generalizing start with
  | nil => rfl
  | cons s rest ih => simp [ranges_from_sizes, ih]

theorem ranges_from_sizes_chain (start : ℕ) (sizes : List ℕ) :
    List.Chain' (fun a b : ℕ × ℕ => a.2 = b.1) (ranges_from_sizes start sizes) := by
  induction sizes generalizing start with
  | nil => exact List.chain'_nil
  | cons s rest ih =>
      cases rest with
      | nil => simp [ranges_from_sizes]
      | cons s2 r2 =>
          have h3 : ranges_from_sizes (start + s) (s2 :: r2)
              = (start + s, start + s + s2) :: ranges_from_sizes (start + s + s2) r2 := rfl
          have h2 : ranges_from_sizes start (s :: s2 :: r2)
              = (start, start + s) :: ranges_from_sizes (start + s) (s2 :: r2) := rfl
          rw [h2, h3, List.chain'_cons]
          exact ⟨rfl, h3 ▸ ih (start + s)⟩

theorem ranges_from_sizes_getD (start : ℕ) (sizes : List ℕ) (k : ℕ) (hk : k < sizes.length) :
    (ranges_from_sizes start sizes).getD k (0, 0)
      = (start + (sizes.take k).sum, start + (sizes.take (k + 1)).sum) := by
  induction sizes generalizing start k with
  | nil => simp at hk
  | cons s rest ih =>
      cases k with
      | zero => simp [ranges_from_sizes]
      | succ k' =>
          have hk' : k' < rest.length := by simpa using hk
          have hstep : (ranges_from_sizes start (s :: rest)).getD (k' + 1) (0, 0)
              = (ranges_from_sizes (start + s) rest).getD k' (0, 0) := rfl
          rw [hstep, ih (start + s) k' hk']
          simp [List.take_succ_cons, Nat.add_assoc]

theorem ranges_from_sizes_mem_iff (start : ℕ) (sizes : List ℕ) (y : ℕ) :
    (∃ r ∈ ranges_from_sizes start sizes, r.1 ≤ y ∧ y < r.2)
      ↔ (start ≤ y ∧ y < start + sizes.sum) := by
  induction sizes generalizing start with
  | nil =>
      simp only [ranges_from_sizes, List.sum_nil]
      constructor
      · rintro ⟨r, hr, _⟩
        cases hr
      · intro hy
        omega
  | cons s rest ih =>
      constructor
      · rintro ⟨r, hr, hy1, hy2⟩
        rcases List.mem_cons.1 hr with rfl | hr'
        · simp only [List.sum_cons]
          omega
        · have := (ih (start + s) |>.1) ⟨r, hr', hy1, hy2⟩
          simp only [List.sum_cons]
          omega
      · intro hy
        simp only [List.sum_cons] at hy
        rcases lt_or_le y (start + s) with hcase | hcase
        · exact ⟨(start, start + s), List.mem_cons_self _ _, hy.1, hcase⟩
        · obtain ⟨r, hr, hys⟩ := (ih (start + s) |>.2) ⟨hcase, by omega⟩
          exact ⟨r, List.mem_cons_of_mem _ hr, hys⟩

theorem chunkSizes_length (H n : ℕ) : (chunkSizes H n).length = n := by
  simp [chunkSizes]

theorem chunkSizes_getElem? (H n k : ℕ) (hk : k < n) :
    (chunkSizes H n)[k]? = some (H / n + (if k < H % n then 1 else 0)) := by
  simp [chunkSizes, List.getElem?_map, List.getElem?_range, hk]

theorem chunkSizes_take_sum (H n k : ℕ) (hk : k ≤ n) :
    ((chunkSizes H n).take k).sum = k * (H / n) + min k (H % n) := by
  induction k with
  | zero => simp
  | succ k' ih =>
      have hk' : k' ≤ n := Nat.le_of_succ_le hk
      rw [List.take_succ, List.sum_append, ih hk',
        chunkSizes_getElem? H n k' (Nat.lt_of_succ_le hk)]
      rcases Nat.lt_or_ge k' (H % n) with hlt | hge
      · rw [if_pos hlt]
        simp only [Option.toList_some, List.sum_cons, List.sum_nil, add_mul, one_mul]
        omega
      · rw [if_neg (by omega)]
        simp only [Option.toList_some, List.sum_cons, List.sum_nil, add_mul, one_mul]
        omega

theorem chunkSizes_step (H n k : ℕ) (hk : k < n) :
    ((chunkSizes H n).take (k + 1)).sum
      = ((chunkSizes H n).take k).sum + (H / n + (if k < H % n then 1 else 0)) := by
  rw [List.take_succ, List.sum_append, chunkSizes_getElem? H n k hk]
  simp

theorem chunkSizes_sum (H n : ℕ) (hn : 0 < n) : (chunkSizes H n).sum = H := by
  have h := chunkSizes_take_sum H n n le_rfl
  rw [List.take_of_length_le (le_of_eq (chunkSizes_length H n))] at h
  have hm : H % n < n := Nat.mod_lt _ hn
  rw [h, min_eq_right hm.le]
  exact Nat.div_add_mod H n

/-- C3 counterexample.  With `num_images = 1`, shape `(1, 1, 1)` and the
positive budget `max_mem = 1`, the required memory is 18 bytes, so
`n_chunks = 18 > H = 1` and the plan contains seventeen empty ranges
`(1, 1)`: the ranges are not strictly increasing (the range at index 1 has
`row_start = row_end`), contradicting the claim. -/
theorem C3_counterexample :
    compute_rows_ranges_for_stack 1 1 1 1 1 = some ((0, 1) :: List.replicate 17 (1, 1)) ∧
    (((compute_rows_ranges_for_stack 1 1 1 1 1).getD []).getD 1 (0, 0)).1
      = (((compute_rows_ranges_for_stack 1 1 1 1 1).getD []).getD 1 (0, 0)).2 := by
  have hc : nChunks 1 1 1 1 1 = 18 := by
    unfold nChunks
    rw [show ((compute_stacking_memory_requirements 1 1 1 1 4 : ℚ)) / ((1 : ℤ) : ℚ)
        = ((18 : ℤ) : ℚ) by norm_num [compute_stacking_memory_requirements], Int.ceil_intCast]
  have hplan : compute_rows_ranges_for_stack 1 1 1 1 1
      = some ((0, 1) :: List.replicate 17 (1, 1)) := by
    unfold compute_rows_ranges_for_stack
    rw [if_neg (by norm_num), hc]
    rfl
  exact ⟨hplan, by rw [hplan]; rfl⟩

/-- C3 (amended).  For every `num_images ≥ 1`, shape `(H, W, C)` with
`H, W, C ≥ 1` and budget `max_mem > 0`, the planner returns an ordered
sequence of contiguous row-ranges starting at 0 and ending at `H` whose union
is exactly `[0, H)`; the `k`-th chunk size is `H / n_chunks` plus one extra
row for the first `H % n_chunks` chunks, so no two chunk sizes differ by more
than 1; when `n_chunks = 1` the plan is the single range `(0, H)`.  The
ranges are weakly monotone in general and strictly increasing (all chunks
nonempty) only when `n_chunks ≤ H`; when the computed `n_chunks` exceeds `H`
(budget smaller than one row's footprint) the plan ends with empty ranges
`(H, H)`, which is what the counterexample forces the claim to concede. -/
theorem C3_partition (num_images H W C : ℕ) (max_mem : ℤ)
    (hni : 0 < num_images) (hH : 0 < H) (hW : 0 < W) (hC : 0 < C) (hm : 0 < max_mem) :
    ∃ rs, compute_rows_ranges_for_stack num_images H W C max_mem = some rs ∧
      rs.length = (nChunks num_images H W C max_mem).toNat ∧
      0 < rs.length ∧
      (rs.getD 0 (0, 0)).1 = 0 ∧
      List.Chain' (fun a b : ℕ × ℕ => a.2 = b.1) rs ∧
      (rs.getD (rs.length - 1) (0, 0)).2 = H ∧
      (∀ k, k < rs.length →
        (rs.getD k (0, 0)).1 ≤ (rs.getD k (0, 0)).2 ∧
        (rs.getD k (0, 0)).2 - (rs.getD k (0, 0)).1
          = H / rs.length + (if k < H % rs.length then 1 else 0)) ∧
      (∀ k l, k < rs.length → l < rs.length →
        (rs.getD k (0, 0)).2 - (rs.getD k (0, 0)).1
          ≤ (rs.getD l (0, 0)).2 - (rs.getD l (0, 0)).1 + 1) ∧
      (∀ y, (∃ r ∈ rs, r.1 ≤ y ∧ y < r.2) ↔ y < H) ∧
      (rs.length = 1 → rs = [(0, H)]) ∧
      (rs.length ≤ H → ∀ k, k < rs.length →
        (rs.getD k (0, 0)).1 < (rs.getD k (0, 0)).2) := by
  classical
  set n : ℕ := (nChunks num_images H W C max_mem).toNat with hn
  have hreq : 0 < compute_stacking_memory_requirements num_images H W C 4 := by
    unfold compute_stacking_memory_requirements
    positivity
  have hnpos : 0 < n := by
    have hq : (0 : ℚ) < (compute_stacking_memory_requirements num_images H W C 4 : ℚ) / (max_mem : ℚ) := by
      apply div_pos
      · exact_mod_cast hreq
      · exact_mod_cast hm
    have hceil : 0 < nChunks num_images H W C max_mem := Int.ceil_pos.2 hq
    omega
  refine ⟨ranges_from_sizes 0 (chunkSizes H n), ?_, ?_, ?_, ?_, ?_, ?_, ?_, ?_, ?_, ?_, ?_⟩
  · unfold compute_rows_ranges_for_stack
    rw [if_neg hm.ne']
  · rw [ranges_from_sizes_length, chunkSizes_length]
  · rw [ranges_from_sizes_length, chunkSizes_length]
    exact hnpos
  · rw [ranges_from_sizes_getD 0 _ 0 (by rw [chunkSizes_length]; exact hnpos)]
    simp
  · exact ranges_from_sizes_chain 0 _
  · rw [ranges_from_sizes_length, chunkSizes_length]
    rw [ranges_from_sizes_getD 0 _ (n - 1)
      (by rw [chunkSizes_length]; omega)]
    have : n - 1 + 1 = n := by omega
    rw [this]
    rw [List.take_of_length_le (le_of_eq (chunkSizes_length H n)), chunkSizes_sum H n hnpos]
    simp
  · intro k hk
    rw [ranges_from_sizes_length, chunkSizes_length] at hk
    rw [ranges_from_sizes_length, chunkSizes_length]
    rw [ranges_from_sizes_getD 0 _ k (by rw [chunkSizes_length]; exact hk)]
    have hstep := chunkSizes_step H n k hk
    obtain ⟨q, hq⟩ : ∃ q, H / n = q := ⟨_, rfl⟩
    obtain ⟨b, hbv⟩ : ∃ b, (if k < H % n then 1 else 0) = b := ⟨_, rfl⟩
    rw [hq, hbv] at hstep
    rw [hq, hbv, hstep]
    dsimp only
    constructor
    · omega
    · omega
  · intro k l hk hl
    rw [ranges_from_sizes_length, chunkSizes_length] at hk hl
    rw [ranges_from_sizes_getD 0 _ k (by rw [chunkSizes_length]; exact hk),
      ranges_from_sizes_getD 0 _ l (by rw [chunkSizes_length]; exact hl)]
    have hk1 := chunkSizes_step H n k hk
    have hl1 := chunkSizes_step H n l hl
    set q := H / n with hq
    set bk := (if k < H % n then 1 else 0) with hbk0
    set bl := (if l < H % n then 1 else 0) with hbl0
    have hbk : bk ≤ 1 := by rw [hbk0]; split <;> omega
    have hbl : bl ≤ 1 := by rw [hbl0]; split <;> omega
    simp only [hk1, hl1]
    omega
  · intro y
    rw [ranges_from_sizes_mem_iff 0 _ y, chunkSizes_sum H n hnpos]
    omega
  · intro hlen
    rw [ranges_from_sizes_length, chunkSizes_length] at hlen
    rw [hlen]
    have hsizes : chunkSizes H 1 = [H] := by
      simp [chunkSizes, List.range_succ, List.range_zero, Nat.div_one, Nat.mod_one]
    rw [hsizes]
    simp [ranges_from_sizes]
  · intro hnH k hk
    rw [ranges_from_sizes_length, chunkSizes_length] at hnH hk
    rw [ranges_from_sizes_getD 0 _ k (by rw [chunkSizes_length]; exact hk)]
    have hstep := chunkSizes_step H n k hk
    have hdiv : 1 ≤ H / n := (Nat.one_le_div_iff hnpos).2 hnH
    set q := H / n with hq
    set b := (if k < H % n then 1 else 0) with hb
    simp only [hstep]
    omega

/-- Witness for C3 on `num_images = 10`, shape `(40, 40, 3)`, budget large
enough for a single chunk: the plan is `[(0, 40)]`. -/
theorem C3_partition_witness :
    compute_rows_ranges_for_stack 10 40 40 3 100000000 = some [(0, 40)] := by
  obtain ⟨rs, hplan, hlen, _, _, _, _, _, _, _, hone, _⟩ :=
    C3_partition 10 40 40 3 100000000 (by norm_num) (by norm_num) (by norm_num)
      (by norm_num) (by norm_num)
  have hc : nChunks 10 40 40 3 100000000 = 1 := by
    unfold nChunks
    rw [show ((compute_stacking_memory_requirements 10 40 40 3 4 : ℚ)) / ((100000000 : ℤ) : ℚ)
        = (390400 : ℚ) / 100000000 by norm_num [compute_stacking_memory_requirements]]
    rw [Int.ceil_eq_iff]
    norm_num
  rw [hplan, hone (by rw [hlen, hc]; rfl)]

/-! ## C2: no starved pixel -/

/-- The running scan of `moon_rejection` ends on an index below `N` that
attains the (squared) maximum distance among all frames: the accumulator's
second component is the scan's running maximum, and its first component is a
frame realising it. -/
theorem moonScan_spec (headers : ℕ → Header) (h w : ℕ) :
    ∀ N, 0 < N →
      (moonScan headers N h w).1 < N ∧
      (moonScan headers N h w).2
        = radiusSq (headers (moonScan headers N h w).1).moonX
            (headers (moonScan headers N h w).1).moonY h w ∧
      ∀ j, j < N → radiusSq (headers j).moonX (headers j).moonY h w
        ≤ (moonScan headers N h w).2 := by
  intro N
  induction N with
  | zero => omega
  | succ N ih =>
      intro _
      have hunf : moonScan headers (N + 1) h w
          = (if (moonScan headers N h w).2
                < radiusSq (headers N).moonX (headers N).moonY h w
             then (N, radiusSq (headers N).moonX (headers N).moonY h w)
             else moonScan headers N h w) := by
        unfold moonScan
        rw [List.range_succ, List.foldl_append]
        rfl
      rcases Nat.eq_zero_or_pos N with rfl | hpos
      · have hscan0 : moonScan headers 0 h w = (0, 0) := rfl
        rw [hunf, hscan0]
        by_cases hd : (0 : ℚ) < radiusSq (headers 0).moonX (headers 0).moonY h w
        · rw [if_pos hd]
          refine ⟨Nat.lt_succ_self 0, rfl, ?_⟩
          intro j hj
          interval_cases j
          exact le_refl _
        · rw [if_neg hd]
          have hz : radiusSq (headers 0).moonX (headers 0).moonY h w = 0 :=
            le_antisymm (not_lt.1 hd) (radiusSq_nonneg _ _ _ _)
          refine ⟨Nat.lt_succ_self 0, hz.symm, ?_⟩
          intro j hj
          interval_cases j
          exact le_of_eq hz
      · obtain ⟨ih1, ih2, ih3⟩ := ih hpos
        rw [hunf]
        by_cases hd : (moonScan headers N h w).2
            < radiusSq (headers N).moonX (headers N).moonY h w
        · rw [if_pos hd]
          refine ⟨Nat.lt_succ_self N, rfl, ?_⟩
          intro j hj
          rcases Nat.lt_succ_iff_lt_or_eq.1 hj with hj' | rfl
          · exact le_trans (ih3 j hj') hd.le
          · exact le_refl _
        · rw [if_neg hd]
          refine ⟨Nat.lt_succ_of_lt ih1, ih2, ?_⟩
          intro j hj
          rcases Nat.lt_succ_iff_lt_or_eq.1 hj with hj' | rfl
          · exact ih3 j hj'
          · exact not_lt.1 hd

theorem filter_beq_range (N k : ℕ) (hk : k < N) :
    (List.range N).filter (fun i => i == k) = [k] := by
  induction N with
  | zero => omega
  | succ N ih =>
      rw [List.range_succ, List.filter_append]
      rcases Nat.lt_succ_iff_lt_or_eq.1 hk with hk' | rfl
      · rw [ih hk']
        have hN : (List.filter (fun i => i == k) [N]) = [] := by
          have : (N == k) = false := by
            simp only [beq_eq_false_iff_ne, ne_eq]
            omega
          simp [List.filter, this]
        rw [hN, List.append_nil]
      · have h1 : (List.range k).filter (fun i => i == k) = [] := by
          rw [List.filter_eq_nil_iff]
          intro a ha
          have : a < k := List.mem_range.1 ha
          simp only [beq_iff_eq]
          omega
        rw [h1]
        simp [List.filter]

theorem liveIdx_congr (mask1 mask2 : ℕ → Bool) (N : ℕ)
    (hc : ∀ i, i < N → mask1 i = mask2 i) : liveIdx mask1 N = liveIdx mask2 N := by
  unfold liveIdx
  apply List.filter_congr
  intro i hi
  rw [hc i (List.mem_range.1 hi)]

theorem maColumnMean_single (x : ℕ → ℚ) (mask : ℕ → Bool) (N k : ℕ)
    (hl : liveIdx mask N = [k]) : maColumnMean x mask N = x k := by
  unfold maColumnMean
  rw [hl]
  simp

theorem maColumnVar_single (x : ℕ → ℚ) (mask : ℕ → Bool) (N k : ℕ)
    (hl : liveIdx mask N = [k]) : maColumnVar x mask N = 0 := by
  unfold maColumnVar
  rw [hl, maColumnMean_single x mask N k hl]
  simp

/-- C2.  After `moon_rejection`, every pixel/channel column has at least one
unmasked frame.  At a pixel where the occlusion loop masked every frame, the
rescued frame is exactly the preferred index — the running argmax of distance
to the occluder centres, which attains the maximum distance — and the reduced
pipeline output at such a pixel equals that frame's stored value (not NaN),
for any outlier threshold. -/
theorem C2_no_starved_pixel (N : ℕ) (hN : 0 < N)
    (data : ℕ → ℕ → ℕ → ℕ → ℚ) (headers : ℕ → Header) (t : ℚ) (h w c : ℕ) :
    (∃ i, i < N ∧ (moon_rejection data headers N).mask i h w c = false) ∧
    (allMaskedAfterLoop headers N h w = true →
      preferredIdx headers N h w < N ∧
      (∀ j, j < N → Real.sqrt (radiusSq (headers j).moonX (headers j).moonY h w)
        ≤ Real.sqrt (radiusSq (headers (preferredIdx headers N h w)).moonX
            (headers (preferredIdx headers N h w)).moonY h w)) ∧
      (moon_rejection data headers N).mask (preferredIdx headers N h w) h w c = false ∧
      (∀ i, i < N → i ≠ preferredIdx headers N h w →
        (moon_rejection data headers N).mask i h w c = true) ∧
      (processChunk data headers N t).out_img h w c
        = data (preferredIdx headers N h w) h w c) := by
  obtain ⟨hscan1, hscan2, hscan3⟩ := moonScan_spec headers h w N hN
  have hmaskdef : ∀ i, (moon_rejection data headers N).mask i h w c
      = moon_rejection_mask headers N i h w := fun i => rfl
  constructor
  · by_cases hall : allMaskedAfterLoop headers N h w = true
    · refine ⟨preferredIdx headers N h w, hscan1, ?_⟩
      rw [hmaskdef]
      unfold moon_rejection_mask
      rw [hall]
      simp
    · have hnotall : ¬ ∀ x ∈ List.range N, moonMaskEntry (headers x) h w = true := by
        intro hcontra
        exact hall (List.all_eq_true.2 hcontra)
      push_neg at hnotall
      obtain ⟨i, hiM, hie⟩ := hnotall
      have hie' : moonMaskEntry (headers i) h w = false := Bool.eq_false_iff.mpr hie
      refine ⟨i, List.mem_range.1 hiM, ?_⟩
      rw [hmaskdef]
      unfold moon_rejection_mask
      rw [hie']
      simp
  · intro hall
    have hallmem : ∀ i, i < N → moonMaskEntry (headers i) h w = true := by
      intro i hi
      exact List.all_eq_true.1 hall i (List.mem_range.2 hi)
    have hp1 : preferredIdx headers N h w < N := hscan1
    have hmaskchar : ∀ i, i < N →
        moon_rejection_mask headers N i h w = !(i == preferredIdx headers N h w) := by
      intro i hi
      unfold moon_rejection_mask
      rw [hallmem i hi, hall]
      simp
    have hmax : ∀ j, j < N →
        Real.sqrt (radiusSq (headers j).moonX (headers j).moonY h w)
          ≤ Real.sqrt (radiusSq (headers (preferredIdx headers N h w)).moonX
              (headers (preferredIdx headers N h w)).moonY h w) := by
      intro j hj
      apply Real.sqrt_le_sqrt
      have := hscan2 ▸ hscan3 j hj
      exact_mod_cast this
    have hmaskp : (moon_rejection data headers N).mask
        (preferredIdx headers N h w) h w c = false := by
      rw [hmaskdef, hmaskchar _ hp1]
      simp
    have hmaski : ∀ i, i < N → i ≠ preferredIdx headers N h w →
        (moon_rejection data headers N).mask i h w c = true := by
      intro i hi hne
      rw [hmaskdef, hmaskchar i hi]
      have : (i == preferredIdx headers N h w) = false := beq_eq_false_iff_ne.2 hne
      rw [this]
      rfl
    refine ⟨hp1, hmax, hmaskp, hmaski, ?_⟩
    have hlive : liveIdx (fun j => moon_rejection_mask headers N j h w) N
        = [preferredIdx headers N h w] := by
      unfold liveIdx
      have hcg : ∀ i ∈ List.range N,
          (!(moon_rejection_mask headers N i h w)) = (i == preferredIdx headers N h w) := by
        intro i hi
        rw [hmaskchar i (List.mem_range.1 hi), Bool.not_not]
      rw [List.filter_congr hcg]
      exact filter_beq_range N _ hp1
    have hmean := maColumnMean_single (fun j => data j h w c)
      (fun j => moon_rejection_mask headers N j h w) N _ hlive
    have hvar := maColumnVar_single (fun j => data j h w c)
      (fun j => moon_rejection_mask headers N j h w) N _ hlive
    have hmask2 : ∀ i, i < N →
        (outlier_rejection (moon_rejection data headers N) N t).mask i h w c
          = !(i == preferredIdx headers N h w) := by
      intro i hi
      show outlier_rejection_entry (fun j => data j h w c)
          (fun j => moon_rejection_mask headers N j h w) N t i
        = !(i == preferredIdx headers N h w)
      simp only [outlier_rejection_entry]
      rcases eq_or_ne i (preferredIdx headers N h w) with rfl | hne
      · rw [hmaskchar _ hi, hmean, hvar]
        simp [sigmaRejectB, sub_self]
      · rw [hmaskchar i hi]
        have : (i == preferredIdx headers N h w) = false := beq_eq_false_iff_ne.2 hne
        rw [this]
        rfl
    have hMi : ∀ i, i < N →
        maskedToNaN (outlier_rejection (moon_rejection data headers N) N t) i h w c
          = (if i = preferredIdx headers N h w then some (data i h w c) else none) := by
      intro i hi
      unfold maskedToNaN
      rw [hmask2 i hi]
      rcases eq_or_ne i (preferredIdx headers N h w) with rfl | hne
      · rw [if_neg (by simp), if_pos rfl]
        rfl
      · have hb : (i == preferredIdx headers N h w) = false := beq_eq_false_iff_ne.2 hne
        rw [hb, if_pos (by simp), if_neg hne]
    show (weighted_average_ignore_nan N
        (maskedToNaN (outlier_rejection (moon_rejection data headers N) N t))
        (fun _ _ _ => 1)).out_img h w c = data (preferredIdx headers N h w) h w c
    simp only [weighted_average_ignore_nan]
    rw [list_range_map_sum, list_range_map_sum]
    have heffi : ∀ i, i < N →
        effWeight (maskedToNaN (outlier_rejection (moon_rejection data headers N) N t))
          (fun _ _ _ => 1) i h w c
        = (if i = preferredIdx headers N h w then 1 else 0) := by
      intro i hi
      unfold effWeight
      rw [hMi i hi]
      rcases eq_or_ne i (preferredIdx headers N h w) with rfl | hne
      · simp
      · simp [hne]
    have hden : ∑ i ∈ Finset.range N,
        effWeight (maskedToNaN (outlier_rejection (moon_rejection data headers N) N t))
          (fun _ _ _ => 1) i h w c = 1 := by
      have h0 : ∀ b ∈ Finset.range N, b ≠ preferredIdx headers N h w →
          effWeight (maskedToNaN (outlier_rejection (moon_rejection data headers N) N t))
            (fun _ _ _ => 1) b h w c = 0 := by
        intro b hb hne
        rw [heffi b (Finset.mem_range.1 hb), if_neg hne]
      rw [Finset.sum_eq_single_of_mem (preferredIdx headers N h w)
        (Finset.mem_range.2 hp1) h0, heffi _ hp1, if_pos rfl]
    have hnum : ∑ i ∈ Finset.range N,
        (maskedToNaN (outlier_rejection (moon_rejection data headers N) N t) i h w c).getD 0 *
          effWeight (maskedToNaN (outlier_rejection (moon_rejection data headers N) N t))
            (fun _ _ _ => 1) i h w c
        = data (preferredIdx headers N h w) h w c := by
      have h0 : ∀ b ∈ Finset.range N, b ≠ preferredIdx headers N h w →
          (maskedToNaN (outlier_rejection (moon_rejection data headers N) N t) b h w c).getD 0 *
            effWeight (maskedToNaN (outlier_rejection (moon_rejection data headers N) N t))
              (fun _ _ _ => 1) b h w c = 0 := by
        intro b hb hne
        rw [heffi b (Finset.mem_range.1 hb), if_neg hne, mul_zero]
      rw [Finset.sum_eq_single_of_mem (preferredIdx headers N h w)
        (Finset.mem_range.2 hp1) h0, heffi _ hp1, if_pos rfl, hMi _ hp1, if_pos rfl]
      simp
    rw [hden, hnum, div_one]

/-- Witness for C2: two frames whose occluder disks (centre `(0,0)`, radius 1)
both cover pixel `(0,0)`; the preferred frame is frame 0 and the pipeline
output at that pixel is frame 0's value 7. -/
theorem C2_no_starved_pixel_witness :
    allMaskedAfterLoop (fun _ => Header.mk 0 0 1) 2 0 0 = true ∧
    (processChunk (fun i _ _ _ => if i = 0 then (7 : ℚ) else 9)
      (fun _ => Header.mk 0 0 1) 2 3).out_img 0 0 0 = 7 := by
  have hall : allMaskedAfterLoop (fun _ => Header.mk 0 0 1) 2 0 0 = true := by
    norm_num [allMaskedAfterLoop, List.range_succ, moonMaskEntry, sqrtLE, radiusSq]
  have hpd : preferredIdx (fun _ => Header.mk 0 0 1) 2 0 0 = 0 := by
    norm_num [preferredIdx, moonScan, List.range_succ, radiusSq]
  have T := (C2_no_starved_pixel 2 (by norm_num)
      (fun i _ _ _ => if i = 0 then (7 : ℚ) else 9)
      (fun _ => Header.mk 0 0 1) 3 0 0 0).2 hall
  refine ⟨hall, ?_⟩
  rw [T.2.2.2.2, hpd]
  norm_num

/-! ## C1: chunk invariance -/

set_option maxHeartbeats 4000000 in
/-- C1 (evaluation of the code at the failing input).  Processing the
`(2, 2, 1, 1)` stack `c1Data`/`c1Headers` with threshold 3 as the single
chunk `(0, 2)` yields output row 1 equal to `10` (the mean of frame 0's `20`
and frame 1's `0`, both live); processing it as the partition
`(0, 1), (1, 2)` yields `0` at the same global pixel, because
`moon_rejection` computes `polar.radius_map` over the chunk's local shape
with no region offset, so chunk `(1, 2)` treats global row 1 as row 0 and
masks frame 0 inside its occluder disk.  Chunk invariance fails. -/
theorem C1_chunked_differs :
    chunkedOut [(0, 2)] c1Data c1Headers 2 3 1 0 0 = 10 ∧
    chunkedOut [(0, 1), (1, 2)] c1Data c1Headers 2 3 1 0 0 = 0 ∧
    chunkedOut [(0, 1), (1, 2)] c1Data c1Headers 2 3 1 0 0
      ≠ chunkedOut [(0, 2)] c1Data c1Headers 2 3 1 0 0 := by
  have h1 : chunkedOut [(0, 2)] c1Data c1Headers 2 3 1 0 0 = 10 := by
    norm_num [chunkedOut, List.find?, processChunk, weighted_average_ignore_nan, maskedToNaN,
      outlier_rejection, outlier_rejection_entry, maColumnMean, maColumnVar, liveIdx,
      sigmaRejectB, moon_rejection, moon_rejection_mask, moonMaskEntry, allMaskedAfterLoop,
      radiusSq, sqrtLE, effWeight, c1Headers, c1Data, List.range_succ]
  have h2 : chunkedOut [(0, 1), (1, 2)] c1Data c1Headers 2 3 1 0 0 = 0 := by
    norm_num [chunkedOut, List.find?, processChunk, weighted_average_ignore_nan, maskedToNaN,
      outlier_rejection, outlier_rejection_entry, maColumnMean, maColumnVar, liveIdx,
      sigmaRejectB, moon_rejection, moon_rejection_mask, moonMaskEntry, allMaskedAfterLoop,
      radiusSq, sqrtLE, effWeight, c1Headers, c1Data, List.range_succ]
  refine ⟨h1, h2, ?_⟩
  rw [h1, h2]
  norm_num

end Umbra
